import Mathlib

/-!
Shallow embedding of the anasm assembler core
(src/internal/compiler/compiler.go) and proofs about it.

Strings from the Go source are modelled as lists of byte values
(Go strings are byte sequences).  Machine words (Go type Word = uint64)
are modelled as natural numbers kept below 2^64 at every conversion
point that Go performs on fixed-width integers; the running counters
(token position, memory size) are modelled as unbounded naturals, since
their uint64 overflow is unreachable for any stream the lexer can yield.
-/

set_option maxRecDepth 16384

namespace Anasm

/-- Byte values of a Lean string literal (ASCII payloads only are used). -/
def bytesOf (s : String) : List Nat := s.data.map Char.toNat

/-- Token kinds, modelled from the spec: the token package is not under
src/; the kinds follow section 3 of the design document (bare word, label
declaration, let keyword, size specifiers, literals of four bases,
character, float, string, address reference, comma, end-of-file, error). -/
inductive TokenType where
  | word
  | label
  | tLet
  | size8
  | size16
  | size32
  | size64
  | dec
  | hex
  | oct
  | bin
  | char
  | float
  | str
  | addr
  | comma
  | eof
  | err
deriving DecidableEq, Repr

/-- A token: kind plus textual payload, given as the list of its bytes.
Source positions carried by Go tokens are dropped; they never influence
control flow, only error message text. -/
structure Token where
  type : TokenType
  data : List Nat
deriving DecidableEq, Repr

/-- The end-of-file token appended by preprocessing. -/
def eofTok : Token := ⟨TokenType.eof, []⟩

/-- Modelled from the spec: token.IsArg of the token package (not under
src/) holds exactly for argument-shaped tokens, section 4.2: integer
literals in base 10/16/8/2, character literals, floating-point literals
and address references. -/
def Token.isArg (t : Token) : Bool :=
  match t.type with
  | TokenType.dec => true
  | TokenType.hex => true
  | TokenType.oct => true
  | TokenType.bin => true
  | TokenType.char => true
  | TokenType.float => true
  | TokenType.addr => true
  | _ => false

/-- Instruction descriptor: opcode byte and whether one argument is taken
(Go: the Insts table entries). -/
structure Inst where
  op : Nat
  hasArg : Bool
deriving DecidableEq, Repr

/-- The static instruction table, an external collaborator of the
compiler: a lookup from instruction name to its descriptor. -/
def InstTable : Type := List Nat → Option Inst

/-- Association-list lookup, modelling Go map reads for the label and
variable tables. -/
def lookupTbl (t : List (List Nat × Nat)) (k : List Nat) : Option Nat :=
  match t with
  | [] => none
  | (k2, v) :: rest => if k2 = k then some v else lookupTbl rest k

/-- Value of an ASCII digit byte in bases up to 36, as Go strconv lowers
letters; none for a non-digit byte. -/
def digitVal (b : Nat) : Option Nat :=
  if 48 ≤ b ∧ b ≤ 57 then some (b - 48)
  else if 97 ≤ b ∧ b ≤ 122 then some (b - 87)
  else if 65 ≤ b ∧ b ≤ 90 then some (b - 55)
  else none

/-- Accumulator loop of unsigned integer parsing. -/
def parseUintAux (base : Nat) : List Nat → Nat → Option Nat
  | [], acc => some acc
  | b :: rest, acc =>
    match digitVal b with
    | none => none
    | some v => if v < base then parseUintAux base rest (acc * base + v) else none

/-- Embeds strconv.ParseUint for an explicit base and bitSize 64: at
least one digit, every digit below the base, result below 2^64. -/
def parseUintGo (base : Nat) (ds : List Nat) : Option Nat :=
  match ds with
  | [] => none
  | _ =>
    match parseUintAux base ds 0 with
    | none => none
    | some m => if m < 2 ^ 64 then some m else none

/-- Embeds strconv.ParseInt for an explicit base and bitSize 64: an
optional single sign, then digits; the magnitude must fit int64. -/
def parseIntGo (base : Nat) (bs : List Nat) : Option Int :=
  let sign : Bool × List Nat :=
    match bs with
    | 43 :: rest => (false, rest)
    | 45 :: rest => (true, rest)
    | _ => (false, bs)
  match parseUintGo base sign.2 with
  | none => none
  | some m =>
    if sign.1 then
      if m ≤ 2 ^ 63 then some (-(m : Int)) else none
    else
      if m < 2 ^ 63 then some (m : Int) else none

/-- Go conversion Word(data) from int64 to uint64: two's complement
reduction modulo 2^64. -/
def int64ToWord (i : Int) : Nat := (i % ((2 : Int) ^ 64)).toNat

/-- Digit scan of a plain decimal floating literal: digits with at most
one dot, at least one digit; yields numerator and number of fraction
digits. -/
def parseDecRatAux : List Nat → Bool → Bool → Nat → Nat → Option (Nat × Nat)
  | [], seenDigit, _, num, fl => if seenDigit then some (num, fl) else none
  | b :: rest, sd, dot, num, fl =>
    if b = 46 then
      if dot then none else parseDecRatAux rest sd true num fl
    else if 48 ≤ b ∧ b ≤ 57 then
      parseDecRatAux rest true dot (num * 10 + (b - 48)) (if dot then fl + 1 else fl)
    else none

/-- A plain decimal literal as an exact rational: numerator and a power
of ten denominator. -/
def parseDecRat (bs : List Nat) : Option (Nat × Nat) :=
  match parseDecRatAux bs false false 0 0 with
  | none => none
  | some (num, fl) => some (num, 10 ^ fl)

/-- Least j (up to the given fuel) with d ≤ n * 2^j; 1100 steps of fuel
cover the whole binary exponent range of 64-bit doubles. -/
def leastJ : Nat → Nat → Nat → Nat
  | _, _, 0 => 0
  | n, d, f + 1 => if d ≤ n then 0 else leastJ (2 * n) d f + 1

/-- Fuel-bounded floor of the base-2 logarithm, exact for arguments
below 2^fuel; phrased with fuel so that it reduces inside the kernel. -/
def log2Fuel : Nat → Nat → Nat
  | 0, _ => 0
  | f + 1, n => if 2 ≤ n then log2Fuel f (n / 2) + 1 else 0

/-- Floor of the base-2 logarithm of the positive rational n / d; 1100
bits of fuel cover the whole exponent range of 64-bit doubles, and
values beyond it fall outside the normal range handled downstream. -/
def floorLog2Rat (n d : Nat) : Int :=
  if d ≤ n then Int.ofNat (log2Fuel 1100 (n / d))
  else -Int.ofNat (leastJ (2 * n) d 1100 + 1)

/-- IEEE-754 binary64 encoding of the positive rational n / d with
round-to-nearest, ties to even; none outside the normal range.  This
embeds the composition of strconv.ParseFloat (which returns the nearest
64-bit double) and math.Float64bits (which reinterprets its bits). -/
def float64bitsPos (n d : Nat) : Option Nat :=
  let e : Int := floorLog2Rat n d
  let shift : Int := 52 - e
  let A : Nat := if 0 ≤ shift then n * 2 ^ shift.toNat else n
  let B : Nat := if 0 ≤ shift then d else d * 2 ^ (-shift).toNat
  let q0 : Nat := A / B
  let r : Nat := A % B
  let m : Nat :=
    if B < 2 * r then q0 + 1
    else if 2 * r < B then q0
    else if q0 % 2 = 0 then q0 else q0 + 1
  let me : Nat × Int := if m = 2 ^ 53 then (2 ^ 52, e + 1) else (m, e)
  let expField : Int := me.2 + 1023
  if 1 ≤ expField ∧ expField ≤ 2046 ∧ 2 ^ 52 ≤ me.1 ∧ me.1 < 2 ^ 53 then
    some (expField.toNat * 2 ^ 52 + (me.1 - 2 ^ 52))
  else none

/-- Embeds strconv.ParseFloat followed by math.Float64bits, restricted
to the plain decimal literals the lexer classifies as float tokens:
returns the bit pattern of the nearest 64-bit double.  Values outside
the positive normal range (and exotic syntax such as exponents, inf,
nan, hex floats) are outside the modelled scope and yield none. -/
def parseFloatBits (bs : List Nat) : Option Nat :=
  match parseDecRat bs with
  | none => none
  | some (n, d) => if n = 0 then some 0 else float64bitsPos n d

/-- Continuation byte test for UTF-8 decoding. -/
def contB (b : Nat) : Prop := 128 ≤ b ∧ b ≤ 191

instance (b : Nat) : Decidable (contB b) := by
  unfold contB; infer_instance

/-- Rune sequence of a byte string, as Go range-over-string decodes it:
well-formed UTF-8 sequences yield their code point, any invalid byte
yields 65533 (the replacement character) and advances one byte. -/
def utf8Runes : List Nat → List Nat
  | [] => []
  | b :: rest =>
    if b < 128 then b :: utf8Runes rest
    else if 194 ≤ b ∧ b ≤ 223 then
      match rest with
      | c1 :: rest2 =>
        if contB c1 then ((b - 192) * 64 + (c1 - 128)) :: utf8Runes rest2
        else 65533 :: utf8Runes (c1 :: rest2)
      | [] => [65533]
    else if 224 ≤ b ∧ b ≤ 239 then
      match rest with
      | c1 :: c2 :: rest3 =>
        if (if b = 224 then 160 ≤ c1 ∧ c1 ≤ 191
            else if b = 237 then 128 ≤ c1 ∧ c1 ≤ 159
            else contB c1) ∧ contB c2 then
          ((b - 224) * 4096 + (c1 - 128) * 64 + (c2 - 128)) :: utf8Runes rest3
        else 65533 :: utf8Runes (c1 :: c2 :: rest3)
      | r => 65533 :: utf8Runes r
    else if 240 ≤ b ∧ b ≤ 244 then
      match rest with
      | c1 :: c2 :: c3 :: rest4 =>
        if (if b = 240 then 144 ≤ c1 ∧ c1 ≤ 191
            else if b = 244 then 128 ≤ c1 ∧ c1 ≤ 143
            else contB c1) ∧ contB c2 ∧ contB c3 then
          ((b - 240) * 262144 + (c1 - 128) * 4096 + (c2 - 128) * 64 + (c3 - 128))
            :: utf8Runes rest4
        else 65533 :: utf8Runes (c1 :: c2 :: c3 :: rest4)
      | r => 65533 :: utf8Runes r
    else 65533 :: utf8Runes rest
termination_by l => l.length
decreasing_by all_goals (simp only [List.length_cons]; omega)

/-- User-facing error values of the compiler; each constructor stands
for one fmt.Errorf format string of compiler.go (source positions
dropped). -/
inductive CompErr where
  | lexError (data : List Nat)
  | redefinedLabel (name : List Nat)
  | entryNotFound
  | unexpectedToken (t : Token)
  | notAnInstruction (name : List Nat)
  | expectsAnArgument (name : List Nat)
  | expectsNoArguments (name : List Nat)
  | expectedArgument (t : Token)
  | expectedRegisterArgument (t : Token)
  | addrNotDeclared (name : List Nat)
  | expectedVarIdent (t : Token)
  | redefinedVariable (name : List Nat)
  | labelAlreadyExists (name : List Nat)
  | expectedDataSize (t : Token)
  | expectedData (t : Token)
  | wrongDataElementSize (n : Nat)
deriving DecidableEq, Repr

/-- Outcome of a compiler step: a value, a returned error, or a Go
panic (which in compiler.go is distinct from returning an error). -/
inductive Res (α : Type) where
  | ok (val : α)
  | err (e : CompErr)
  | panicked (msg : String)
deriving DecidableEq, Repr

/-- Mutable state of the Compiler struct during the compile pass: the
label table (read-only here, filled by preprocessing), the variable
table, the memory region with its size counter, and the program region
(both regions as byte lists). -/
structure St where
  labels : List (List Nat × Nat)
  vars : List (List Nat × Nat)
  memory : List Nat
  memorySize : Nat
  program : List Nat
deriving DecidableEq, Repr

/-- Big-endian byte encoding of a value in the given number of bytes
(binary.Write with binary.BigEndian on a fixed-width integer). -/
def beBytes : Nat → Nat → List Nat
  | 0, _ => []
  | n + 1, v => beBytes n (v / 256) ++ [v % 256]

/-- Compiler.writeMemory: append data at the requested element size to
the memory region, truncating to that width (Go uint8/16/32 casts);
sizes other than 1/2/4/8 are an error. -/
def writeMemory (st : St) (data : Nat) (size : Nat) : Res St :=
  if size = 1 ∨ size = 2 ∨ size = 4 ∨ size = 8 then
    Res.ok { st with memory := st.memory ++ beBytes size (data % 2 ^ (8 * size)) }
  else Res.err (CompErr.wrongDataElementSize size)

/-- Compiler.writeInst: append an instruction record, one opcode byte
followed by the 8-byte big-endian operand. -/
def writeInst (st : St) (op : Nat) (data : Nat) : St :=
  { st with program := st.program ++ op :: beBytes 8 (data % 2 ^ 64) }

/-- Compiler.argToWord: convert an argument-shaped token to a machine
word.  Literal re-parsing failures and over-long or empty character
payloads panic in compiler.go rather than returning an error; the float
literal is parsed by strconv.ParseFloat (its bitSize argument 8 behaves
as 64) and reinterpreted by math.Float64bits. -/
def argToWord (st : St) (tok : Token) : Res Nat :=
  match tok.type with
  | TokenType.dec =>
    match parseIntGo 10 tok.data with
    | some i => Res.ok (int64ToWord i)
    | none => Res.panicked ("strconv.ParseInt")
  | TokenType.hex =>
    match parseIntGo 16 tok.data with
    | some i => Res.ok (int64ToWord i)
    | none => Res.panicked ("strconv.ParseInt")
  | TokenType.oct =>
    match parseIntGo 8 tok.data with
    | some i => Res.ok (int64ToWord i)
    | none => Res.panicked ("strconv.ParseInt")
  | TokenType.bin =>
    match parseIntGo 2 tok.data with
    | some i => Res.ok (int64ToWord i)
    | none => Res.panicked ("strconv.ParseInt")
  | TokenType.char =>
    if 1 < tok.data.length then Res.panicked ("len(tok.Data) > 1")
    else
      match tok.data with
      | [] => Res.panicked ("index out of range")
      | b :: _ => Res.ok b
  | TokenType.float =>
    match parseFloatBits tok.data with
    | some w => Res.ok w
    | none => Res.panicked ("strconv.ParseFloat")
  | TokenType.addr =>
    match lookupTbl st.labels tok.data with
    | some w => Res.ok w
    | none =>
      match lookupTbl st.vars tok.data with
      | some w => Res.ok w
      | none => Res.err (CompErr.addrNotDeclared tok.data)
  | _ => Res.err (CompErr.expectedRegisterArgument tok)

/-- The token under the cursor, c.toks[c.pos]; the compile pass is
modelled on the suffix of the filtered list starting at the cursor.
Indexing past the end is unreachable because preprocessing terminates
every filtered stream with an eof token, which the cursor never passes;
curTok [] = eofTok encodes that invariant. -/
def curTok (l : List Token) : Token := l.headD eofTok

/-- Compiler.next: advance the cursor unless the current token is eof. -/
def nextToks (l : List Token) : List Token :=
  match l with
  | [] => []
  | t :: rest => if t.type = TokenType.eof then l else rest

/-- Compiler.compileInst: look the current word token up in the
instruction table, validate argument arity against the descriptor, and
append the instruction record; returns the new state and the suffix at
the new cursor.  The second IsArg test of the source (line 233) is dead
code and kept as the redundant inner check. -/
def compileInst (I : InstTable) (st : St) (l : List Token) : Res (St × List Token) :=
  let tok := curTok l
  match I tok.data with
  | none => Res.err (CompErr.notAnInstruction tok.data)
  | some inst =>
    let l1 := nextToks l
    let t1 := curTok l1
    if ¬ t1.isArg then
      if inst.hasArg then Res.err (CompErr.expectsAnArgument tok.data)
      else Res.ok (writeInst st inst.op 0, l1)
    else if ¬ inst.hasArg then Res.err (CompErr.expectsNoArguments tok.data)
    else if ¬ t1.isArg then Res.err (CompErr.expectedArgument t1)
    else
      match argToWord st t1 with
      | Res.ok data => Res.ok (writeInst st inst.op data, nextToks l1)
      | Res.err e => Res.err e
      | Res.panicked m => Res.panicked m

/-- One data item of a let declaration written to memory: a word datum
at the element size, with the memory size counter advanced. -/
def writeDatum (st : St) (data : Nat) (size : Nat) : Res St :=
  match writeMemory st data size with
  | Res.ok st2 => Res.ok { st2 with memorySize := st2.memorySize + size }
  | Res.err e => Res.err e
  | Res.panicked m => Res.panicked m

/-- The string case of the let data loop: each rune of the payload is
written individually at the element size (Go ranges over the string,
yielding runes). -/
def writeStrData (st : St) (runes : List Nat) (size : Nat) : Res St :=
  match runes with
  | [] => Res.ok st
  | r :: rs =>
    match writeDatum st r size with
    | Res.ok st2 => writeStrData st2 rs size
    | Res.err e => Res.err e
    | Res.panicked m => Res.panicked m

/-- One iteration body of the let data loop: a string item writes each
of its runes, any other item must be argument-shaped and writes one
converted word. -/
def letDataStep (st : St) (size : Nat) (t : Token) : Res St :=
  if t.type = TokenType.str then
    writeStrData st (utf8Runes t.data) size
  else if ¬ t.isArg then Res.err (CompErr.expectedData t)
  else
    match argToWord st t with
    | Res.ok data => writeDatum st data size
    | Res.err e => Res.err e
    | Res.panicked m => Res.panicked m

/-- The comma-separated data list loop of Compiler.compileLet: one
string or argument-shaped item per iteration, terminated by the first
token after an item that is not a comma. -/
def compileLetData (st : St) (size : Nat) : List Token → Res (St × List Token)
  | [] => Res.err (CompErr.expectedData eofTok)
  | t :: rest =>
    match letDataStep st size t with
    | Res.err e => Res.err e
    | Res.panicked m => Res.panicked m
    | Res.ok st2 =>
      match rest with
      | [] => Res.ok (st2, [])
      | c :: rest2 =>
        if c.type = TokenType.comma then compileLetData st2 size rest2
        else Res.ok (st2, c :: rest2)

/-- Compiler.compileLet: a let declaration.  The variable name must be
a word token unused by both tables; it is bound to the current memory
size PLUS ONE, then the element size specifier is read and the data
list is consumed. -/
def compileLet (st : St) (l : List Token) : Res (St × List Token) :=
  let l1 := nextToks l
  let t1 := curTok l1
  if t1.type ≠ TokenType.word then Res.err (CompErr.expectedVarIdent t1)
  else if (lookupTbl st.vars t1.data).isSome then Res.err (CompErr.redefinedVariable t1.data)
  else if (lookupTbl st.labels t1.data).isSome then Res.err (CompErr.labelAlreadyExists t1.data)
  else
    let st1 := { st with vars := (t1.data, st.memorySize + 1) :: st.vars }
    let l2 := nextToks l1
    let t2 := curTok l2
    let sizeSpec : Option Nat :=
      match t2.type with
      | TokenType.size8 => some 1
      | TokenType.size16 => some 2
      | TokenType.size32 => some 4
      | TokenType.size64 => some 8
      | _ => none
    match sizeSpec with
    | none => Res.err (CompErr.expectedDataSize t2)
    | some size => compileLetData st1 size (nextToks l2)

/-- The compile-pass loop of Compiler.compile, with explicit fuel; the
wrapper compile supplies fuel exceeding the token count, which a fuel
adequacy lemma shows is always enough, so the out-of-fuel branch is
unreachable. -/
def compileFuel (I : InstTable) : Nat → St → List Token → Res St
  | 0, _, _ => Res.panicked ("out of fuel")
  | f + 1, st, l =>
    let t := curTok l
    if t.type = TokenType.eof then Res.ok st
    else if t.type = TokenType.word then
      match compileInst I st l with
      | Res.ok (st2, l2) => compileFuel I f st2 l2
      | Res.err e => Res.err e
      | Res.panicked m => Res.panicked m
    else if t.type = TokenType.tLet then
      match compileLet st l with
      | Res.ok (st2, l2) => compileFuel I f st2 l2
      | Res.err e => Res.err e
      | Res.panicked m => Res.panicked m
    else Res.err (CompErr.unexpectedToken t)

/-- Compiler.compile: run the compile pass over the whole filtered
token list. -/
def compile (I : InstTable) (st : St) (l : List Token) : Res St :=
  compileFuel I (l.length + 1) st l

/-- Result of preprocessing: the filtered token list (ending in eof),
the program size in instruction slots, the label table and the entry
point. -/
structure PreOut where
  toks : List Token
  programSize : Nat
  labels : List (List Nat × Nat)
  entryPoint : Nat
deriving DecidableEq, Repr

/-- The byte string of the mandatory entry label name. -/
def entryName : List Nat := bytesOf ("entry")

/-- The loop of Compiler.preproc over the token stream supplied by the
lexer (the lexer itself is external to src/ and is modelled as the list
of tokens it yields; an eof token, or the end of the list, terminates
the loop).  Error tokens abort; word tokens naming instructions advance
the instruction-slot counter and are kept; label declarations bind the
name to the counter and are dropped; everything else is kept.  At the
end the entry label is required, and the eof token is appended. -/
def preprocGo (I : InstTable) : List Token → Nat → List (List Nat × Nat) → List Token →
    Res PreOut
  | [], pos, labels, acc =>
    (match lookupTbl labels entryName with
     | none => Res.err CompErr.entryNotFound
     | some e => Res.ok ⟨acc ++ [eofTok], pos, labels, e⟩)
  | t :: rest, pos, labels, acc =>
    match t.type with
    | TokenType.eof =>
      (match lookupTbl labels entryName with
       | none => Res.err CompErr.entryNotFound
       | some e => Res.ok ⟨acc ++ [t], pos, labels, e⟩)
    | TokenType.err => Res.err (CompErr.lexError t.data)
    | TokenType.word =>
      if (I t.data).isSome then preprocGo I rest (pos + 1) labels (acc ++ [t])
      else preprocGo I rest pos labels (acc ++ [t])
    | TokenType.label =>
      (match lookupTbl labels t.data with
       | some _ => Res.err (CompErr.redefinedLabel t.data)
       | none => preprocGo I rest pos ((t.data, pos) :: labels) acc)
    | _ => preprocGo I rest pos labels (acc ++ [t])

/-- Compiler.preproc on a token stream. -/
def preproc (I : InstTable) (stream : List Token) : Res PreOut :=
  preprocGo I stream 0 [] []

/-- The compile-pass state at the start of the compile pass: empty
variable table and regions, the label table from preprocessing. -/
def initSt (labels : List (List Nat × Nat)) : St := ⟨labels, [], [], 0, []⟩

/-- The written output file: its byte contents and whether the
executable permission was set (os.Chmod 0777). -/
structure OutFile where
  bytes : List Nat
  executable : Bool
deriving DecidableEq, Repr

/-- The interpreter line written before the magic bytes of executable
outputs. -/
def shebang : List Nat := bytesOf ("#!/usr/bin/avm\n")

/-- The 3-byte container magic, the bytes of AVM. -/
def magicBytes : List Nat := [65, 86, 77]

/-- The version triple.  In the Go const block VersionPatch carries no
expression, so it repeats the previous one: the patch byte equals
VersionMinor = 7. -/
def versionBytes : List Nat := [1, 7, 7]

/-- Compiler.CompileToBinary: run both passes and, only when both
succeed, produce the output file: optional shebang, magic, version,
the three big-endian word fields (program size, final memory size,
entry point), the memory region, the program region.  File-system
failures of os.Create and Write are outside the model; an error from
either pass is returned before any file is created. -/
def CompileToBinary (I : InstTable) (stream : List Token) (executable : Bool) :
    Res OutFile :=
  match preproc I stream with
  | Res.err e => Res.err e
  | Res.panicked m => Res.panicked m
  | Res.ok pre =>
    match compile I (initSt pre.labels) pre.toks with
    | Res.err e => Res.err e
    | Res.panicked m => Res.panicked m
    | Res.ok st =>
      Res.ok ⟨(if executable then shebang else []) ++ magicBytes ++ versionBytes ++
        beBytes 8 pre.programSize ++ beBytes 8 st.memorySize ++ beBytes 8 pre.entryPoint ++
        st.memory ++ st.program, executable⟩

/-- Modelled from the spec: the Insts table itself (inst.go) is not
under src/; the spec fixes only its shape, a static lookup from name to
(opcode byte, takes-one-argument flag).  This example table is used for
concrete witnesses; claims about particular descriptors are stated for
every table containing them. -/
def exInsts : InstTable := fun name =>
  if name = bytesOf ("nop") then some ⟨0, false⟩
  else if name = bytesOf ("halt") then some ⟨1, false⟩
  else if name = bytesOf ("push") then some ⟨2, true⟩
  else if name = bytesOf ("jmp") then some ⟨3, true⟩
  else none

/-- A bare word token with the given name. -/
def wordTok (s : String) : Token := ⟨TokenType.word, bytesOf s⟩

/-- A label declaration token. -/
def labelTok (s : String) : Token := ⟨TokenType.label, bytesOf s⟩

/-- An address reference token. -/
def addrTok (s : String) : Token := ⟨TokenType.addr, bytesOf s⟩

/-- A decimal literal token. -/
def decTok (s : String) : Token := ⟨TokenType.dec, bytesOf s⟩

/-- The let keyword token. -/
def letTok : Token := ⟨TokenType.tLet, []⟩

/-- The one-byte element size specifier token. -/
def size8Tok : Token := ⟨TokenType.size8, []⟩

/-- The comma separator token. -/
def commaTok : Token := ⟨TokenType.comma, []⟩

/-- Number of instruction slots a token list occupies: the count of
bare word tokens naming instructions, exactly what the preprocessing
counter adds up. -/
def countInsts (I : InstTable) : List Token → Nat
  | [] => 0
  | t :: rest =>
    (if t.type = TokenType.word ∧ (I t.data).isSome then 1 else 0) + countInsts I rest

/-- Names of the label declaration tokens of a stream, in order. -/
def streamLabels : List Token → List (List Nat)
  | [] => []
  | t :: rest =>
    if t.type = TokenType.label then t.data :: streamLabels rest else streamLabels rest

/-- The minimal program of the spec, entry colon halt, as its token
stream. -/
def entryHaltStream : List Token := [labelTok ("entry"), wordTok ("halt")]

/-- Token stream for a forward label reference: entry label, jmp to L,
halt, the declaration of L, then nop.  The instruction immediately
following the declaration of L is nop, at instruction slot 2. -/
def fwdLabelStream : List Token :=
  [labelTok ("entry"), wordTok ("jmp"), addrTok ("L"), wordTok ("halt"),
   labelTok ("L"), wordTok ("nop")]

/-- Cursor suffix of a let declaration with element size one and data
list 1,2,3 (as filtered for the compile pass, ending in eof). -/
def letStream : List Token :=
  [letTok, wordTok ("x"), size8Tok, decTok ("1"), commaTok, decTok ("2"), commaTok,
   decTok ("3"), eofTok]

/-- Token stream referencing variable x from an instruction before the
let declaration of x appears. -/
def fwdVarStream : List Token :=
  [labelTok ("entry"), wordTok ("push"), addrTok ("x"),
   letTok, wordTok ("x"), size8Tok, decTok ("1")]

/-- Token stream referencing label x declared only after the
referencing instruction, the label analogue of fwdVarStream. -/
def fwdVarLabelStream : List Token :=
  [labelTok ("entry"), wordTok ("push"), addrTok ("x"), labelTok ("x")]

/-- Token stream declaring variable x before an instruction uses it;
the compile pass reaches the use with x already in the variable
table. -/
def backVarStream : List Token :=
  [labelTok ("entry"),
   letTok, wordTok ("x"), size8Tok, decTok ("1"), commaTok, decTok ("2"), commaTok,
   decTok ("3"),
   wordTok ("push"), addrTok ("x")]

/-- A stream consisting of a single lexer error token (and hence
containing no entry label). -/
def lexErrStream : List Token := [⟨TokenType.err, [120]⟩]

/-- Output bytes of the executable assembly of entryHaltStream. -/
def entryHaltExeBytes : List Nat :=
  shebang ++ magicBytes ++ versionBytes ++ beBytes 8 1 ++ beBytes 8 0 ++ beBytes 8 0 ++
    (1 :: beBytes 8 0)

theorem nextToks_length_le (l : List Token) : (nextToks l).length ≤ l.length := by
  cases l with
  | nil => simp [nextToks]
  | cons t rest =>
    simp only [nextToks]
    split <;> simp

theorem compileInst_ok_lt {I : InstTable} {st st2 : St} {l l2 : List Token}
    (hw : (curTok l).type = TokenType.word)
    (h : compileInst I st l = Res.ok (st2, l2)) : l2.length < l.length := by
  cases l with
  | nil => simp [curTok, eofTok] at hw
  | cons t rest =>
    have hnx : nextToks (t :: rest) = rest := by
      simp only [curTok, List.headD] at hw
      simp [nextToks, hw]
    simp only [compileInst, hnx] at h
    split at h
    · cases h
    · split at h
      · split at h
        · cases h
        · cases h
          simp
      · split at h
        · cases h
        · split at h
          · cases h
            exact Nat.lt_of_le_of_lt (nextToks_length_le rest) (by simp)
          · cases h
          · cases h

theorem compileLetData_ok_le_aux {size : Nat} :
    ∀ (n : Nat) {l : List Token}, l.length ≤ n →
      ∀ {st st2 : St} {l2 : List Token},
        compileLetData st size l = Res.ok (st2, l2) → l2.length ≤ l.length := by
  intro n
  induction n with
  | zero =>
    intro l hl st st2 l2 h
    cases l with
    | nil => simp [compileLetData] at h
    | cons t rest => simp at hl
  | succ n ih =>
    intro l hl st st2 l2 h
    cases l with
    | nil => simp [compileLetData] at h
    | cons t rest =>
      simp only [compileLetData] at h
      rcases hs : letDataStep st size t with stA | e | m <;> simp only [hs] at h
      · cases rest with
        | nil =>
          cases h
          simp
        | cons c rest2 =>
          dsimp only at h
          by_cases hc : c.type = TokenType.comma
          · rw [if_pos hc] at h
            have hr2 : rest2.length ≤ n := by
              simp only [List.length_cons] at hl
              omega
            have := ih hr2 h
            simp only [List.length_cons]
            omega
          · rw [if_neg hc] at h
            cases h
            simp
      · cases h
      · cases h

theorem compileLetData_ok_le {size : Nat} {l : List Token} {st st2 : St} {l2 : List Token}
    (h : compileLetData st size l = Res.ok (st2, l2)) : l2.length ≤ l.length :=
  compileLetData_ok_le_aux l.length le_rfl h

theorem compileLet_ok_lt {st st2 : St} {l l2 : List Token}
    (hw : (curTok l).type = TokenType.tLet)
    (h : compileLet st l = Res.ok (st2, l2)) : l2.length < l.length := by
  cases l with
  | nil => simp [curTok, eofTok] at hw
  | cons t rest =>
    have hnx : nextToks (t :: rest) = rest := by
      simp only [curTok, List.headD] at hw
      simp [nextToks, hw]
    simp only [compileLet, hnx] at h
    split at h
    · cases h
    · split at h
      · cases h
      · split at h
        · cases h
        · split at h
          · cases h
          · have h1 := compileLetData_ok_le h
            have h2 := nextToks_length_le (nextToks rest)
            have h3 := nextToks_length_le rest
            simp only [List.length_cons]
            omega

theorem compileFuel_congr_aux {I : InstTable} :
    ∀ (n : Nat) {l : List Token}, l.length ≤ n → ∀ {f g : Nat} {st : St},
      l.length < f → l.length < g → compileFuel I f st l = compileFuel I g st l := by
  intro n
  induction n with
  | zero =>
    intro l hl f g st hf hg
    cases l with
    | cons t rest => simp at hl
    | nil =>
      match f, g, hf, hg with
      | f1 + 1, g1 + 1, _, _ => simp [compileFuel, curTok, eofTok]
  | succ n ih =>
    intro l hl f g st hf hg
    match f, g, hf, hg with
    | f1 + 1, g1 + 1, hf, hg =>
      simp only [compileFuel]
      by_cases he : (curTok l).type = TokenType.eof
      · simp [he]
      · by_cases hw : (curTok l).type = TokenType.word
        · rcases hc : compileInst I st l with ⟨st2, l2⟩ | e | m
          · have hlt : l2.length < l.length := compileInst_ok_lt hw hc
            simp [he, hw, hc]
            exact ih (by omega) (by omega) (by omega)
          · simp [he, hw, hc]
          · simp [he, hw, hc]
        · by_cases hlet : (curTok l).type = TokenType.tLet
          · rcases hc : compileLet st l with ⟨st2, l2⟩ | e | m
            · have hlt : l2.length < l.length := compileLet_ok_lt hlet hc
              simp [he, hw, hlet, hc]
              exact ih (by omega) (by omega) (by omega)
            · simp [he, hw, hlet, hc]
            · simp [he, hw, hlet, hc]
          · simp [he, hw, hlet]

/-- The fuel supplied by compile is canonical: any fuel exceeding the
token count gives the same result, so the out-of-fuel branch of
compileFuel is unreachable from compile. -/
theorem compileFuel_congr {I : InstTable} {l : List Token} {f g : Nat} {st : St}
    (hf : l.length < f) (hg : l.length < g) :
    compileFuel I f st l = compileFuel I g st l :=
  compileFuel_congr_aux l.length le_rfl hf hg

theorem writeMemory_ok_vars {st st2 : St} {data size : Nat}
    (h : writeMemory st data size = Res.ok st2) : st2.vars = st.vars := by
  simp only [writeMemory] at h
  split at h
  · cases h
    rfl
  · cases h

theorem writeDatum_ok_vars {st st2 : St} {data size : Nat}
    (h : writeDatum st data size = Res.ok st2) : st2.vars = st.vars := by
  simp only [writeDatum] at h
  rcases hm : writeMemory st data size with stA | e | m <;> simp only [hm] at h
  · cases h
    simpa using writeMemory_ok_vars hm
  · cases h
  · cases h

theorem writeStrData_ok_vars {size : Nat} :
    ∀ {runes : List Nat} {st st2 : St},
      writeStrData st runes size = Res.ok st2 → st2.vars = st.vars := by
  intro runes
  induction runes with
  | nil =>
    intro st st2 h
    simp only [writeStrData] at h
    cases h
    rfl
  | cons r rs ih =>
    intro st st2 h
    simp only [writeStrData] at h
    split at h
    · exact (ih h).trans (writeDatum_ok_vars (by assumption))
    · cases h
    · cases h

theorem letDataStep_ok_vars {st st2 : St} {size : Nat} {t : Token}
    (h : letDataStep st size t = Res.ok st2) : st2.vars = st.vars := by
  simp only [letDataStep] at h
  split at h
  · exact writeStrData_ok_vars h
  · split at h
    · cases h
    · split at h
      · exact writeDatum_ok_vars h
      · cases h
      · cases h

theorem compileLetData_ok_vars_aux {size : Nat} :
    ∀ (n : Nat) {l : List Token}, l.length ≤ n →
      ∀ {st st2 : St} {l2 : List Token},
        compileLetData st size l = Res.ok (st2, l2) → st2.vars = st.vars := by
  intro n
  induction n with
  | zero =>
    intro l hl st st2 l2 h
    cases l with
    | nil => simp [compileLetData] at h
    | cons t rest => simp at hl
  | succ n ih =>
    intro l hl st st2 l2 h
    cases l with
    | nil => simp [compileLetData] at h
    | cons t rest =>
      simp only [compileLetData] at h
      rcases hs : letDataStep st size t with stA | e | m <;> simp only [hs] at h
      · cases rest with
        | nil =>
          cases h
          exact letDataStep_ok_vars hs
        | cons c rest2 =>
          dsimp only at h
          by_cases hc : c.type = TokenType.comma
          · rw [if_pos hc] at h
            have hr2 : rest2.length ≤ n := by
              simp only [List.length_cons] at hl
              omega
            exact (ih hr2 h).trans (letDataStep_ok_vars hs)
          · rw [if_neg hc] at h
            cases h
            exact letDataStep_ok_vars hs
      · cases h
      · cases h

theorem compileLetData_ok_vars {size : Nat} {l : List Token} {st st2 : St} {l2 : List Token}
    (h : compileLetData st size l = Res.ok (st2, l2)) : st2.vars = st.vars :=
  compileLetData_ok_vars_aux l.length le_rfl h

theorem compileLet_ok_binding {st st2 : St} {l l2 : List Token}
    (h : compileLet st l = Res.ok (st2, l2)) :
    lookupTbl st2.vars (curTok (nextToks l)).data = some (st.memorySize + 1) := by
  simp only [compileLet] at h
  split at h
  · cases h
  · split at h
    · cases h
    · split at h
      · cases h
      · split at h
        · cases h
        · rw [compileLetData_ok_vars h]
          simp [lookupTbl]

theorem preprocGo_labels_mono {I : InstTable} :
    ∀ {stream : List Token} {pos : Nat} {labels : List (List Nat × Nat)}
      {acc : List Token} {r : PreOut},
      preprocGo I stream pos labels acc = Res.ok r →
      ∀ {k : List Nat} {v : Nat}, lookupTbl labels k = some v →
        lookupTbl r.labels k = some v := by
  intro stream
  induction stream with
  | nil =>
    intro pos labels acc r h k v hk
    simp only [preprocGo] at h
    split at h
    · cases h
    · cases h
      exact hk
  | cons t rest ih =>
    intro pos labels acc r h k v hk
    simp only [preprocGo] at h
    split at h
    · split at h
      · cases h
      · cases h
        exact hk
    · cases h
    · split at h
      · exact ih h hk
      · exact ih h hk
    · split at h
      · cases h
      · rename_i hnone
        refine ih h ?_
        have hne : ¬ t.data = k := by
          intro e
          rw [e, hk] at hnone
          cases hnone
        simp [lookupTbl, hne, hk]
    · exact ih h hk

theorem preprocGo_label_binding {I : InstTable} :
    ∀ (pre : List Token) {L : List Nat} {post : List Token} {pos : Nat}
      {labels : List (List Nat × Nat)} {acc : List Token} {r : PreOut},
      (∀ t ∈ pre, t.type ≠ TokenType.eof) →
      (∀ t ∈ pre, t.type = TokenType.label → t.data ≠ L) →
      lookupTbl labels L = none →
      preprocGo I (pre ++ ⟨TokenType.label, L⟩ :: post) pos labels acc = Res.ok r →
      lookupTbl r.labels L = some (pos + countInsts I pre) := by
  intro pre
  induction pre with
  | nil =>
    intro L post pos labels acc r _ _ hfree h
    simp only [List.nil_append, preprocGo, hfree] at h
    have := preprocGo_labels_mono h (k := L) (v := pos) (by simp [lookupTbl])
    simpa [countInsts] using this
  | cons t rest ih =>
    intro L post pos labels acc r hne hlab hfree h
    simp only [List.cons_append, preprocGo] at h
    split at h
    · rename_i heq
      exact absurd heq (hne t (by simp))
    · cases h
    · rename_i heq
      have hcnt : countInsts I (t :: rest) =
          (if (I t.data).isSome then 1 else 0) + countInsts I rest := by
        simp [countInsts, heq]
      split at h
      · rename_i hsome
        have := ih (fun u hu => hne u (by simp [hu])) (fun u hu => hlab u (by simp [hu]))
          hfree h
        rw [this, hcnt, if_pos hsome]
        congr 1
        omega
      · rename_i hnot
        have := ih (fun u hu => hne u (by simp [hu])) (fun u hu => hlab u (by simp [hu]))
          hfree h
        rw [this, hcnt, if_neg hnot]
        simp
    · rename_i heq
      split at h
      · cases h
      · rename_i hnone
        have hdne : t.data ≠ L := hlab t (by simp) heq
        have hfree2 : lookupTbl ((t.data, pos) :: labels) L = none := by
          simp [lookupTbl, hdne, hfree]
        have := ih (fun u hu => hne u (by simp [hu])) (fun u hu => hlab u (by simp [hu]))
          hfree2 h
        rw [this]
        congr 2
        simp [countInsts, heq]
    · rename_i hne1 hne2 hne3 hne4
      have := ih (fun u hu => hne u (by simp [hu])) (fun u hu => hlab u (by simp [hu]))
        hfree h
      rw [this]
      have hw : ¬ (t.type = TokenType.word ∧ (I t.data).isSome = true) :=
        fun hcon => hne3 hcon.1
      simp [countInsts, hw]

theorem preprocGo_no_entry {I : InstTable} :
    ∀ (stream : List Token) {pos : Nat} {labels : List (List Nat × Nat)} {acc : List Token},
      (∀ t ∈ stream, t.type ≠ TokenType.err) →
      (streamLabels stream).Nodup →
      (∀ n ∈ streamLabels stream, lookupTbl labels n = none) →
      entryName ∉ streamLabels stream →
      lookupTbl labels entryName = none →
      preprocGo I stream pos labels acc = Res.err CompErr.entryNotFound := by
  intro stream
  induction stream with
  | nil =>
    intro pos labels acc _ _ _ _ hent
    simp [preprocGo, hent]
  | cons t rest ih =>
    intro pos labels acc herr hnd hfree hent hlent
    have hnotlab :
        t.type ≠ TokenType.label → streamLabels (t :: rest) = streamLabels rest :=
      fun hl => by simp [streamLabels, hl]
    simp only [preprocGo]
    split
    · simp [hlent]
    · rename_i heq
      exact absurd heq (herr t (by simp))
    · rename_i heq
      have hre := hnotlab (by simp [heq])
      rw [hre] at hnd hent
      split
      · exact ih (fun u hu => herr u (by simp [hu])) hnd
          (fun n hn => hfree n (by rw [hre]; exact hn)) hent hlent
      · exact ih (fun u hu => herr u (by simp [hu])) hnd
          (fun n hn => hfree n (by rw [hre]; exact hn)) hent hlent
    · rename_i heq
      have hre : streamLabels (t :: rest) = t.data :: streamLabels rest := by
        simp [streamLabels, heq]
      rw [hre] at hnd hfree hent
      have hdata : lookupTbl labels t.data = none := hfree t.data (by simp)
      simp only [hdata]
      have hdent : t.data ≠ entryName := fun e => hent (by simp [e])
      refine ih (fun u hu => herr u (by simp [hu])) (List.nodup_cons.mp hnd).2 ?_ ?_ ?_
      · intro n hn
        have hnne : t.data ≠ n := fun e => (List.nodup_cons.mp hnd).1 (e ▸ hn)
        simp [lookupTbl, hnne, hfree n (by simp [hn])]
      · intro hc
        exact hent (by simp [hc])
      · simp [lookupTbl, hdent, hlent]
    · rename_i h1 h2 h3 h4
      have hre := hnotlab (fun e => h4 e)
      rw [hre] at hnd hent
      exact ih (fun u hu => herr u (by simp [hu])) hnd
        (fun n hn => hfree n (by rw [hre]; exact hn)) hent hlent

/-- C1, counterexample.  The claim says a let variable is bound to the
memory region byte length at the moment of declaration; compiling the
declaration let x sz8 1,2,3 from an empty memory region (byte length
zero, first data byte at offset zero) binds x to 1, not 0: compiler.go
line 158 stores memorySize + 1. -/
theorem c1_let_binding_counterexample :
    compileLet (initSt []) letStream =
      Res.ok (⟨[], [(bytesOf ("x"), 1)], [1, 2, 3], 3, []⟩, [eofTok]) ∧
    (initSt []).memorySize = 0 ∧
    lookupTbl [(bytesOf ("x"), 1)] (bytesOf ("x")) = some 1 ∧
    (1 : Nat) ≠ 0 := by
  refine ⟨by decide, rfl, by decide, by decide⟩

/-- C1, amended.  Every accepted let declaration binds the variable
name to the memory region byte length at the moment of declaration
PLUS ONE (a one-based address of its first data byte); a declaration
with element size 1 and data list 1,2,3 allocates exactly 3 bytes
holding 1, 2, 3. -/
theorem c1_let_binding_amended :
    (∀ (st : St) (l : List Token) (st2 : St) (l2 : List Token),
        compileLet st l = Res.ok (st2, l2) →
        lookupTbl st2.vars (curTok (nextToks l)).data = some (st.memorySize + 1)) ∧
    compileLet (initSt []) letStream =
      Res.ok (⟨[], [(bytesOf ("x"), 1)], [1, 2, 3], 3, []⟩, [eofTok]) :=
  ⟨fun _ _ _ _ h => compileLet_ok_binding h, by decide⟩

/-- C1, witness for the amended theorem at the concrete declaration
let x sz8 1,2,3 from the initial state. -/
theorem c1_let_binding_amended_witness :
    lookupTbl (⟨[], [(bytesOf ("x"), 1)], [1, 2, 3], 3, []⟩ : St).vars
      (curTok (nextToks letStream)).data = some ((initSt []).memorySize + 1) :=
  c1_let_binding_amended.1 (initSt []) letStream
    ⟨[], [(bytesOf ("x"), 1)], [1, 2, 3], 3, []⟩ [eofTok] (by decide)

/-- C2.  Labels are bound eagerly during preprocessing to the running
instruction-slot counter: if preprocessing succeeds on any stream of
the form pre, label L, post where pre declares no label L and has not
ended, then L is bound to the number of instruction words in pre.  On
the concrete forward reference entry, jmp L, halt, L, nop, the label L
is bound to slot 2, the slot of nop, the instruction immediately after
the declaration, and the encoded jmp operand is 2. -/
theorem c2_forward_label_resolution :
    (∀ (I : InstTable) (pre : List Token) (L : List Nat) (post : List Token) (r : PreOut),
        (∀ t ∈ pre, t.type ≠ TokenType.eof) →
        (∀ t ∈ pre, t.type = TokenType.label → t.data ≠ L) →
        preproc I (pre ++ ⟨TokenType.label, L⟩ :: post) = Res.ok r →
        lookupTbl r.labels L = some (countInsts I pre)) ∧
    preproc exInsts fwdLabelStream = Res.ok ⟨[wordTok ("jmp"), addrTok ("L"),
      wordTok ("halt"), wordTok ("nop"), eofTok], 3,
      [(bytesOf ("L"), 2), (entryName, 0)], 0⟩ ∧
    CompileToBinary exInsts fwdLabelStream false =
      Res.ok ⟨magicBytes ++ versionBytes ++ beBytes 8 3 ++ beBytes 8 0 ++ beBytes 8 0 ++
        ((3 :: beBytes 8 2) ++ (1 :: beBytes 8 0) ++ (0 :: beBytes 8 0)), false⟩ ∧
    countInsts exInsts [wordTok ("jmp"), wordTok ("halt")] = 2 := by
  refine ⟨?_, by decide, by decide, by decide⟩
  intro I pre L post r hne hlab h
  have := preprocGo_label_binding pre hne hlab (by simp [lookupTbl]) h
  simpa using this

/-- C2, witness: the general binding statement applied to the prefix
entry, jmp, addr L, halt of the concrete forward-reference stream. -/
theorem c2_forward_label_resolution_witness :
    lookupTbl [(bytesOf ("L"), 2), (entryName, 0)] (bytesOf ("L")) =
      some (countInsts exInsts
        [labelTok ("entry"), wordTok ("jmp"), addrTok ("L"), wordTok ("halt")]) :=
  c2_forward_label_resolution.1 exInsts
    [labelTok ("entry"), wordTok ("jmp"), addrTok ("L"), wordTok ("halt")]
    (bytesOf ("L")) [wordTok ("nop")]
    ⟨[wordTok ("jmp"), addrTok ("L"), wordTok ("halt"), wordTok ("nop"), eofTok], 3,
      [(bytesOf ("L"), 2), (entryName, 0)], 0⟩
    (by decide) (by decide) (by decide)

/-- C3, counterexample.  A stream consisting of one lexer error token
contains no entry label, yet assembly fails with the lexer error, not
with the missing-entry-point error; the claim is wrong to promise the
missing-entry-point error for every stream with no entry label. -/
theorem c3_missing_entry_counterexample :
    CompileToBinary exInsts lexErrStream false = Res.err (CompErr.lexError [120]) ∧
    streamLabels lexErrStream = [] ∧
    (Res.err (CompErr.lexError [120]) : Res OutFile) ≠ Res.err CompErr.entryNotFound := by
  refine ⟨by decide, by decide, by decide⟩

/-- C3, amended.  A stream without lexer error tokens and without
repeated label declarations that declares no entry label fails with
the missing-entry-point error; and in general the container is
produced only when both passes succeed, so any failing input returns
its error and yields no output file. -/
theorem c3_failure_no_output_amended :
    (∀ (I : InstTable) (stream : List Token) (exec : Bool),
        (∀ t ∈ stream, t.type ≠ TokenType.err) →
        (streamLabels stream).Nodup →
        entryName ∉ streamLabels stream →
        CompileToBinary I stream exec = Res.err CompErr.entryNotFound) ∧
    (∀ (I : InstTable) (stream : List Token) (exec : Bool) (f : OutFile),
        CompileToBinary I stream exec = Res.ok f →
        ∃ pre st, preproc I stream = Res.ok pre ∧
          compile I (initSt pre.labels) pre.toks = Res.ok st) := by
  constructor
  · intro I stream exec herr hnd hent
    have hp : preproc I stream = Res.err CompErr.entryNotFound :=
      preprocGo_no_entry stream herr hnd (fun n _ => rfl) hent rfl
    simp [CompileToBinary, hp]
  · intro I stream exec f h
    simp only [CompileToBinary] at h
    rcases hpre : preproc I stream with pre | e | m <;> simp only [hpre] at h
    · rcases hcomp : compile I (initSt pre.labels) pre.toks with st | e | m <;>
        simp only [hcomp] at h
      · exact ⟨pre, st, rfl, hcomp⟩
      · cases h
      · cases h
    · cases h
    · cases h

/-- C3, witness: the empty stream declares no labels at all, and
assembly fails with the missing-entry-point error. -/
theorem c3_failure_no_output_amended_witness :
    CompileToBinary exInsts [] false = Res.err CompErr.entryNotFound :=
  c3_failure_no_output_amended.1 exInsts [] false (by simp) (by simp [streamLabels])
    (by simp [streamLabels])

/-- C4.  An address argument resolves against the label table and then
the variable table, so a name in neither is an address-not-declared
error; on the concrete stream whose push references variable x
declared by a later let, assembly fails with that error, while the
analogous stream declaring x as a later label assembles, the operand
being the label address. -/
theorem c4_var_forward_reference :
    (∀ (st : St) (n : List Nat),
        lookupTbl st.labels n = none → lookupTbl st.vars n = none →
        argToWord st ⟨TokenType.addr, n⟩ = Res.err (CompErr.addrNotDeclared n)) ∧
    CompileToBinary exInsts fwdVarStream false =
      Res.err (CompErr.addrNotDeclared (bytesOf ("x"))) ∧
    CompileToBinary exInsts fwdVarLabelStream false =
      Res.ok ⟨magicBytes ++ versionBytes ++ beBytes 8 1 ++ beBytes 8 0 ++ beBytes 8 0 ++
        (2 :: beBytes 8 1), false⟩ ∧
    CompileToBinary exInsts backVarStream false =
      Res.ok ⟨magicBytes ++ versionBytes ++ beBytes 8 1 ++ beBytes 8 3 ++ beBytes 8 0 ++
        [1, 2, 3] ++ (2 :: beBytes 8 1), false⟩ := by
  refine ⟨?_, by decide, by decide, by decide⟩
  intro st n h1 h2
  simp [argToWord, h1, h2]

/-- C4, witness: the general resolution statement applied to the
initial state, whose tables are empty. -/
theorem c4_var_forward_reference_witness :
    argToWord (initSt []) ⟨TokenType.addr, bytesOf ("x")⟩ =
      Res.err (CompErr.addrNotDeclared (bytesOf ("x"))) :=
  c4_var_forward_reference.1 (initSt []) (bytesOf ("x")) (by decide) (by decide)

/-- C5.  For any instruction table whose halt descriptor takes no
argument, the minimal program entry colon halt preprocesses to program
size 1, entry point 0, and one filtered instruction token; compiling
yields empty memory, memory size 0, and a 9-byte program region of the
halt opcode followed by eight zero bytes; the emitted container holds
exactly those fields. -/
theorem c5_minimal_program :
    ∀ (I : InstTable) (op : Nat), I (bytesOf ("halt")) = some ⟨op, false⟩ →
      preproc I entryHaltStream =
        Res.ok ⟨[wordTok ("halt"), eofTok], 1, [(entryName, 0)], 0⟩ ∧
      compile I (initSt [(entryName, 0)]) [wordTok ("halt"), eofTok] =
        Res.ok ⟨[(entryName, 0)], [], [], 0, op :: beBytes 8 0⟩ ∧
      beBytes 8 0 = List.replicate 8 0 ∧
      (op :: beBytes 8 0).length = 9 ∧
      CompileToBinary I entryHaltStream false =
        Res.ok ⟨magicBytes ++ versionBytes ++ beBytes 8 1 ++ beBytes 8 0 ++ beBytes 8 0 ++
          (op :: beBytes 8 0), false⟩ := by
  intro I op h
  have hw : (wordTok ("halt")).data = bytesOf ("halt") := rfl
  have hpre : preproc I entryHaltStream =
      Res.ok ⟨[wordTok ("halt"), eofTok], 1, [(entryName, 0)], 0⟩ := by
    simp [preproc, preprocGo, entryHaltStream, labelTok, wordTok, lookupTbl, entryName,
      eofTok, h]
  have hcomp : compile I (initSt [(entryName, 0)]) [wordTok ("halt"), eofTok] =
      Res.ok ⟨[(entryName, 0)], [], [], 0, op :: beBytes 8 0⟩ := by
    simp [compile, compileFuel, compileInst, curTok, nextToks, initSt, writeInst,
      wordTok, eofTok, Token.isArg, h]
  refine ⟨hpre, hcomp, by decide, by simp [show beBytes 8 0 = List.replicate 8 0 by decide],
    ?_⟩
  simp [CompileToBinary, hpre, hcomp]

/-- C5, witness at the example instruction table, where halt has
opcode 1. -/
theorem c5_minimal_program_witness :
    CompileToBinary exInsts entryHaltStream false =
      Res.ok ⟨magicBytes ++ versionBytes ++ beBytes 8 1 ++ beBytes 8 0 ++ beBytes 8 0 ++
        (1 :: beBytes 8 0), false⟩ :=
  (c5_minimal_program exInsts 1 (by decide)).2.2.2.2

/-- C6.  Argument arity checking of compileInst: a no-argument
descriptor followed by an argument-shaped token fails with expects no
arguments; a one-argument descriptor followed by a token that is
absent (the eof terminator) or not argument-shaped fails with expects
an argument; otherwise the record is emitted, with operand 0 in the
no-argument case and the converted operand in the one-argument
case. -/
theorem c6_arity_checking :
    ∀ (I : InstTable) (st : St) (l : List Token) (inst : Inst),
      I (curTok l).data = some inst →
      ((inst.hasArg = false → (curTok (nextToks l)).isArg = true →
          compileInst I st l = Res.err (CompErr.expectsNoArguments (curTok l).data)) ∧
       (inst.hasArg = true → (curTok (nextToks l)).isArg = false →
          compileInst I st l = Res.err (CompErr.expectsAnArgument (curTok l).data)) ∧
       (inst.hasArg = false → (curTok (nextToks l)).isArg = false →
          compileInst I st l = Res.ok (writeInst st inst.op 0, nextToks l)) ∧
       (∀ w, inst.hasArg = true → (curTok (nextToks l)).isArg = true →
          argToWord st (curTok (nextToks l)) = Res.ok w →
          compileInst I st l = Res.ok (writeInst st inst.op w, nextToks (nextToks l)))) := by
  intro I st l inst h
  refine ⟨?_, ?_, ?_, ?_⟩
  · intro h1 h2
    simp [compileInst, h, h1, h2]
  · intro h1 h2
    simp [compileInst, h, h1, h2]
  · intro h1 h2
    simp [compileInst, h, h1, h2]
  · intro w h1 h2 h3
    simp [compileInst, h, h1, h2, h3]

/-- C6, witness: halt of the example table takes no argument and the
following decimal literal is argument-shaped, so compilation fails
with expects no arguments. -/
theorem c6_arity_checking_witness :
    compileInst exInsts (initSt []) [wordTok ("halt"), decTok ("1")] =
      Res.err (CompErr.expectsNoArguments (curTok [wordTok ("halt"), decTok ("1")]).data) :=
  (c6_arity_checking exInsts (initSt []) [wordTok ("halt"), decTok ("1")] ⟨1, false⟩
    (by decide)).1 rfl (by decide)

/-- C7.  A float literal converts to the word holding the IEEE-754 bit
pattern of the parsed 64-bit double: whenever the modelled
ParseFloat-and-Float64bits composition yields bits, the conversion
returns exactly those bits, and on the literal 1.5 the operand is
0x3FF8000000000000, the pattern with biased exponent 1023 and mantissa
one half, not the truncated integer 1. -/
theorem c7_float_literal_bits :
    (∀ (st : St) (bs : List Nat) (w : Nat), parseFloatBits bs = some w →
        argToWord st ⟨TokenType.float, bs⟩ = Res.ok w) ∧
    (∀ st : St, argToWord st ⟨TokenType.float, bytesOf ("1.5")⟩ =
        Res.ok 4609434218613702656) ∧
    4609434218613702656 = 1023 * 2 ^ 52 + 2 ^ 51 ∧
    (4609434218613702656 : Nat) ≠ 1 := by
  have hp : parseFloatBits (bytesOf ("1.5")) = some 4609434218613702656 := by decide
  exact ⟨fun st bs w h => by simp [argToWord, h],
    fun st => by simp [argToWord, hp],
    by norm_num, by norm_num⟩

/-- C7, witness: the general conversion statement applied to the
literal 0.25, whose double has bit pattern 0x3FD0000000000000. -/
theorem c7_float_literal_bits_witness :
    argToWord (initSt []) ⟨TokenType.float, bytesOf ("0.25")⟩ =
      Res.ok 4598175219545276416 :=
  c7_float_literal_bits.1 (initSt []) (bytesOf ("0.25")) 4598175219545276416 (by decide)

/-- C8.  The literals 255 decimal, ff hexadecimal, 377 octal and
11111111 binary all convert to the word 255, whose 8-byte big-endian
operand encoding is 00 00 00 00 00 00 00 FF. -/
theorem c8_numeric_bases_agree :
    ∀ st : St,
      argToWord st (decTok ("255")) = Res.ok 255 ∧
      argToWord st ⟨TokenType.hex, bytesOf ("ff")⟩ = Res.ok 255 ∧
      argToWord st ⟨TokenType.oct, bytesOf ("377")⟩ = Res.ok 255 ∧
      argToWord st ⟨TokenType.bin, bytesOf ("11111111")⟩ = Res.ok 255 ∧
      beBytes 8 255 = [0, 0, 0, 0, 0, 0, 0, 255] :=
  fun _ => ⟨rfl, rfl, rfl, rfl, rfl⟩

/-- C9, counterexample.  The interpreter line of executable output is
15 bytes, not 16: in the executable assembly of the minimal program
the 3 magic bytes follow at offset 15, and the bytes at offset 16 are
not the magic. -/
theorem c9_shebang_counterexample :
    CompileToBinary exInsts entryHaltStream true = Res.ok ⟨entryHaltExeBytes, true⟩ ∧
    shebang.length = 15 ∧
    (entryHaltExeBytes.drop 15).take 3 = magicBytes ∧
    (entryHaltExeBytes.drop 16).take 3 ≠ magicBytes := by
  refine ⟨by decide, by decide, by decide, by decide⟩

/-- C9, amended.  When executable output is requested the writer
prepends the 15-byte interpreter line before the magic bytes and marks
the file executable: a successful non-executable assembly implies the
executable assembly of the same stream succeeds with exactly the
shebang prepended and the executable permission set. -/
theorem c9_shebang_amended :
    shebang = bytesOf ("#!/usr/bin/avm\n") ∧ shebang.length = 15 ∧
    (∀ (I : InstTable) (stream : List Token) (f0 : OutFile),
        CompileToBinary I stream false = Res.ok f0 →
        CompileToBinary I stream true = Res.ok ⟨shebang ++ f0.bytes, true⟩) := by
  refine ⟨rfl, by decide, ?_⟩
  intro I stream f0 h
  simp only [CompileToBinary] at h ⊢
  rcases hpre : preproc I stream with pre | e | m <;> simp only [hpre] at h ⊢
  · rcases hcomp : compile I (initSt pre.labels) pre.toks with st | e | m <;>
      simp only [hcomp] at h ⊢
    · cases h
      simp
    · cases h
    · cases h
  · cases h
  · cases h

/-- C9, witness for the amended theorem on the minimal program. -/
theorem c9_shebang_amended_witness :
    CompileToBinary exInsts entryHaltStream true =
      Res.ok ⟨shebang ++ (⟨magicBytes ++ versionBytes ++ beBytes 8 1 ++ beBytes 8 0 ++
        beBytes 8 0 ++ (1 :: beBytes 8 0), false⟩ : OutFile).bytes, true⟩ :=
  c9_shebang_amended.2.2 exInsts entryHaltStream
    ⟨magicBytes ++ versionBytes ++ beBytes 8 1 ++ beBytes 8 0 ++ beBytes 8 0 ++
      (1 :: beBytes 8 0), false⟩ (by decide)

/-- C10.  Converting a character literal token returns the word value
of the first payload byte exactly when the payload is one byte long;
a longer payload hits the explicit length panic, an empty payload hits
the out-of-range indexing panic, and no payload ever produces a
returned error value. -/
theorem c10_char_literal_panics :
    ∀ (st : St) (bs : List Nat),
      (∀ b, bs = [b] → argToWord st ⟨TokenType.char, bs⟩ = Res.ok b) ∧
      (1 < bs.length →
        argToWord st ⟨TokenType.char, bs⟩ = Res.panicked ("len(tok.Data) > 1")) ∧
      (bs = [] →
        argToWord st ⟨TokenType.char, bs⟩ = Res.panicked ("index out of range")) ∧
      (∀ e, argToWord st ⟨TokenType.char, bs⟩ ≠ Res.err e) := by
  intro st bs
  refine ⟨?_, ?_, ?_, ?_⟩
  · intro b hb
    subst hb
    rfl
  · intro h
    simp [argToWord, h]
  · intro h
    subst h
    rfl
  · intro e
    rcases bs with _ | ⟨b, _ | ⟨c, tl⟩⟩
    · simp [argToWord]
    · simp [argToWord]
    · simp [argToWord, show 1 < tl.length + 2 by omega]

/-- C10, witness: the one-byte payload of the letter a converts to its
byte value 97. -/
theorem c10_char_literal_panics_witness :
    argToWord (initSt []) ⟨TokenType.char, [97]⟩ = Res.ok 97 :=
  (c10_char_literal_panics (initSt []) [97]).1 97 rfl

end Anasm
